import Mathlib

/-!
Verification of the playback-synchronization and contour-rendering core of
pitch_accent_qt_matplotlib.py.  The pure decision logic of the source is
embedded as executable Lean functions over exact rationals, and the spec's
testable properties are settled against them.
-/

/-- Segment scan of redraw_waveform (source lines 494-513).  The Python loop
walks the voiced mask by index: when the sample is voiced and no segment is
open it opens one at the current index; when the sample is unvoiced, or the
index is the last one, and a segment is open, it closes the segment with end
index i (unvoiced) or i + 1 (last index, voiced).  Here the list argument is
the remaining suffix of the mask, the Nat argument is the absolute index of
its head, and the Option Nat is the open segment start; the Python test
i == len(voiced) - 1 corresponds to the tail being empty.  A segment still
open when the loop ends is discarded, exactly as in the Python loop. -/
def segScanGo : List Bool → Nat → Option Nat → List (Nat × Nat)
  | [], _, _ => []
  | v :: rest, i, none =>
    if v then segScanGo rest (i + 1) (some i)
    else segScanGo rest (i + 1) none
  | v :: rest, i, some s =>
    if v then
      if rest.isEmpty then (s, i + 1) :: segScanGo rest (i + 1) none
      else segScanGo rest (i + 1) (some s)
    else (s, i) :: segScanGo rest (i + 1) none

/-- Segments closed by the scan over a full voiced mask. -/
def segScan (voiced : List Bool) : List (Nat × Nat) :=
  segScanGo voiced 0 none

/-- Segments actually plotted by redraw_waveform: at each close site the code
draws only when seg_len > 1 (source line 501), so the plotted segments are
exactly the closed segments of length at least 2. -/
def renderedSegments (voiced : List Bool) : List (Nat × Nat) :=
  (segScan voiced).filter fun p => decide (1 < p.2 - p.1)

/-- Membership test of an index in a half-open segment. -/
def containsIdx (j : Nat) (p : Nat × Nat) : Bool :=
  decide (p.1 ≤ j ∧ j < p.2)

/-- Shifting the absolute index of the scan shifts every closed segment. -/
theorem segScanGo_shift (l : List Bool) : ∀ (i k : Nat) (st : Option Nat),
    segScanGo l (i + k) (st.map (· + k)) =
      (segScanGo l i st).map fun p => (p.1 + k, p.2 + k) := by
  induction l with
  | nil => intro i k st; cases st <;> simp [segScanGo]
  | cons v rest ih =>
    intro i k st
    have hn : segScanGo rest (i + k + 1) none =
        (segScanGo rest (i + 1) none).map fun p => (p.1 + k, p.2 + k) := by
      have h := ih (i + 1) k none
      rw [show i + 1 + k = i + k + 1 from by omega] at h
      exact h
    have hs : ∀ s : Nat, segScanGo rest (i + k + 1) (some (s + k)) =
        (segScanGo rest (i + 1) (some s)).map fun p => (p.1 + k, p.2 + k) := by
      intro s
      have h := ih (i + 1) k (some s)
      rw [show i + 1 + k = i + k + 1 from by omega] at h
      exact h
    cases st with
    | none =>
      cases v with
      | false => simpa [segScanGo] using hn
      | true => simpa [segScanGo] using hs i
    | some s =>
      cases v with
      | false =>
        simp only [Option.map_some, segScanGo, Bool.false_eq_true, if_false,
          List.map_cons]
        rw [hn]
      | true =>
        by_cases hr : rest.isEmpty
        · simp only [Option.map_some, segScanGo, if_pos rfl, if_pos hr,
            List.map_cons]
          rw [hn, show i + k + 1 = i + 1 + k from by omega]
          simp
        · simp only [Option.map_some, segScanGo, if_pos rfl, if_neg hr]
          exact hs s

/-- The scan from a state with an open segment closes it at the end of the
initial voiced run (or at the end of the list when the run reaches it) and
then proceeds with no open segment past the first unvoiced sample. -/
theorem segScanGo_some_decomp (l : List Bool) : ∀ (i s : Nat),
    segScanGo l i (some s) =
      if (l.takeWhile id).length = l.length then
        (if l.isEmpty then [] else [(s, i + l.length)])
      else
        (s, i + (l.takeWhile id).length) ::
          segScanGo (l.drop ((l.takeWhile id).length + 1))
            (i + (l.takeWhile id).length + 1) none := by
  induction l with
  | nil => intro i s; simp [segScanGo]
  | cons v rest ih =>
    intro i s
    cases v with
    | false =>
      simp [segScanGo, List.takeWhile_cons, id]
    | true =>
      by_cases hr : rest.isEmpty
      · have : rest = [] := List.isEmpty_iff.mp hr
        subst this
        simp [segScanGo, List.takeWhile_cons, id]
      · have hre : rest ≠ [] := fun h => hr (by simp [h])
        have htw : ((true :: rest).takeWhile id).length =
            (rest.takeWhile id).length + 1 := by
          simp [List.takeWhile_cons, id]
        have h := ih (i + 1) s
        simp only [segScanGo, if_pos rfl, if_neg hr]
        rw [h]
        by_cases hall : (rest.takeWhile id).length = rest.length
        · have hcond : ((true :: rest).takeWhile id).length =
              (true :: rest).length := by
            rw [htw, List.length_cons, hall]
          rw [if_pos hall, if_pos hcond]
          simp only [List.isEmpty_cons, if_false, hre, if_neg hr,
            Bool.false_eq_true]
          rw [show i + 1 + rest.length = i + (true :: rest).length from by
            simp [List.length_cons]; omega]
          simp
        · have hcond : ¬ ((true :: rest).takeWhile id).length =
              (true :: rest).length := by
            rw [htw, List.length_cons]
            omega
          rw [if_neg hall, if_neg hcond, htw]
          have e3 : (true :: rest).drop ((rest.takeWhile id).length + 1 + 1) =
              rest.drop ((rest.takeWhile id).length + 1) := rfl
          rw [e3, show i + 1 + (rest.takeWhile id).length =
              i + ((rest.takeWhile id).length + 1) from by omega,
            show i + ((rest.takeWhile id).length + 1) + 1 =
              i + ((rest.takeWhile id).length + 1) + 1 from rfl]
          simp

/-- The initial voiced run is no longer than the list. -/
theorem takeWhile_length_le (l : List Bool) :
    (l.takeWhile id).length ≤ l.length := by
  induction l with
  | nil => simp
  | cons v rest ih =>
    cases v with
    | false => simp [List.takeWhile_cons, id]
    | true =>
      simp only [List.takeWhile_cons, id, if_true, List.length_cons]
      omega

/-- Every position strictly inside the initial voiced run is voiced. -/
theorem getD_lt_takeWhile (l : List Bool) : ∀ x, x < (l.takeWhile id).length →
    l.getD x false = true := by
  induction l with
  | nil => intro x hx; simp [List.takeWhile] at hx
  | cons v rest ih =>
    intro x hx
    cases v with
    | false => simp [List.takeWhile_cons, id] at hx
    | true =>
      cases x with
      | zero => rfl
      | succ y =>
        simp only [List.takeWhile_cons, id, if_true, List.length_cons] at hx
        simpa [List.getD_cons_succ] using ih y (by omega)

/-- The sample right after the initial voiced run, when one exists, is
unvoiced. -/
theorem getD_at_takeWhile (l : List Bool) :
    (l.takeWhile id).length < l.length →
    l.getD (l.takeWhile id).length false = false := by
  induction l with
  | nil => intro h; simp at h
  | cons v rest ih =>
    cases v with
    | false => intro _; simp [List.takeWhile_cons, id]
    | true =>
      intro h
      simp only [List.takeWhile_cons, id, if_true, List.length_cons] at h ⊢
      simpa [List.getD_cons_succ] using ih (by omega)

/-- getD through drop adds the offset. -/
theorem getD_drop_add (l : List Bool) : ∀ (m x : Nat),
    (l.drop m).getD x false = l.getD (m + x) false := by
  induction l with
  | nil => intro m x; simp
  | cons v rest ih =>
    intro m x
    cases m with
    | zero => simp
    | succ m =>
      rw [List.drop_succ_cons, ih m x,
        show m + 1 + x = (m + x) + 1 from by omega, List.getD_cons_succ]

/-- Central counting lemma for the scan, by strong induction on the mask
length: index j lies in exactly one closed segment when it is a voiced
position whose maximal voiced run does not begin at the final index, and in
no closed segment otherwise. -/
theorem segScanGo_countP : ∀ (n : Nat) (l : List Bool), l.length ≤ n →
    ∀ j : Nat, ((segScanGo l 0 none).countP (containsIdx j)) =
      (if j < l.length ∧ l.getD j false = true ∧
          ¬(j = l.length - 1 ∧ (j = 0 ∨ l.getD (j - 1) false = false))
       then 1 else 0) := by
  intro n
  induction n with
  | zero =>
    intro l hl j
    have : l = [] := List.length_eq_zero.mp (Nat.le_zero.mp hl)
    subst this
    simp [segScanGo]
  | succ n ih =>
    intro l hl j
    match l with
    | [] => simp [segScanGo]
    | false :: rest =>
      have hrn : rest.length ≤ n := by
        simpa [List.length_cons] using Nat.le_of_succ_le_succ hl
      have hscan : segScanGo (false :: rest) 0 none = segScanGo rest 1 none := by
        simp [segScanGo]
      have hshift : segScanGo rest 1 none =
          (segScanGo rest 0 none).map fun p => (p.1 + 1, p.2 + 1) :=
        segScanGo_shift rest 0 1 none
      rw [hscan, hshift, List.countP_map]
      cases j with
      | zero =>
        have hz : ((segScanGo rest 0 none).countP
            (containsIdx 0 ∘ fun p => (p.1 + 1, p.2 + 1))) = 0 := by
          apply List.countP_eq_zero.mpr
          intro p _
          simp [containsIdx]
        rw [hz]
        simp
      | succ y =>
        have hpred : (containsIdx (y + 1) ∘ fun p => (p.1 + 1, p.2 + 1)) =
            containsIdx y := by
          funext p
          simp only [Function.comp, containsIdx]
          exact decide_eq_decide.mpr (by omega)
        rw [hpred, ih rest hrn y]
        have hprev : ∀ z : Nat, ((z = 0 ∨ rest.getD (z - 1) false = false) ↔
            (false :: rest).getD z false = false) := by
          intro z
          cases z with
          | zero => simp
          | succ w => simp [List.getD_cons_succ]
        have himp1 : (y < rest.length ∧ rest.getD y false = true ∧
            ¬(y = rest.length - 1 ∧ (y = 0 ∨ rest.getD (y - 1) false = false))) →
            (y + 1 < (false :: rest).length ∧
             (false :: rest).getD (y + 1) false = true ∧
             ¬(y + 1 = (false :: rest).length - 1 ∧
               (y + 1 = 0 ∨ (false :: rest).getD (y + 1 - 1) false = false))) := by
          rintro ⟨h1, h2, h3⟩
          refine ⟨by simp only [List.length_cons]; omega,
            by rw [List.getD_cons_succ]; exact h2, ?_⟩
          rintro ⟨ha, hb⟩
          simp only [List.length_cons, Nat.add_sub_cancel] at ha
          apply h3
          refine ⟨by omega, ?_⟩
          rcases hb with hb | hb
          · omega
          · have hb2 : (false :: rest).getD y false = false := by
              rw [show y + 1 - 1 = y from by omega] at hb
              exact hb
            exact (hprev y).mpr hb2
        have himp2 : (y + 1 < (false :: rest).length ∧
             (false :: rest).getD (y + 1) false = true ∧
             ¬(y + 1 = (false :: rest).length - 1 ∧
               (y + 1 = 0 ∨ (false :: rest).getD (y + 1 - 1) false = false))) →
            (y < rest.length ∧ rest.getD y false = true ∧
            ¬(y = rest.length - 1 ∧ (y = 0 ∨ rest.getD (y - 1) false = false))) := by
          rintro ⟨h1, h2, h3⟩
          have hy : y < rest.length := by
            simp only [List.length_cons] at h1; omega
          refine ⟨hy, by rw [List.getD_cons_succ] at h2; exact h2, ?_⟩
          rintro ⟨ha, hb⟩
          apply h3
          refine ⟨by simp only [List.length_cons, Nat.add_sub_cancel]; omega, ?_⟩
          right
          rw [show y + 1 - 1 = y from by omega]
          exact (hprev y).mp hb
        exact if_congr ⟨himp1, himp2⟩ rfl rfl
    | true :: rest =>
      have hrn : rest.length ≤ n := by
        simpa [List.length_cons] using Nat.le_of_succ_le_succ hl
      have hscan : segScanGo (true :: rest) 0 none =
          segScanGo rest 1 (some 0) := by
        simp [segScanGo]
      rw [hscan, segScanGo_some_decomp]
      have hKle : (rest.takeWhile id).length ≤ rest.length :=
        takeWhile_length_le rest
      by_cases hall : (rest.takeWhile id).length = rest.length
      · rw [if_pos hall]
        by_cases hre : rest.isEmpty
        · have : rest = [] := List.isEmpty_iff.mp hre
          subst this
          cases j with
          | zero => simp [containsIdx]
          | succ y => simp [containsIdx, List.getD_cons_succ]
        · rw [if_neg hre]
          have hne : rest ≠ [] := fun h => hre (by simp [h])
          have hlen1 : 0 < rest.length := List.length_pos.mpr hne
          have hcnt : ([((0 : Nat), 1 + rest.length)].countP (containsIdx j)) =
              if j < 1 + rest.length then 1 else 0 := by
            by_cases hj : j < 1 + rest.length
            · rw [if_pos hj]
              simp [containsIdx, List.countP_cons, hj]
            · rw [if_neg hj]
              simp [containsIdx, List.countP_cons, hj]
          rw [hcnt]
          by_cases hj : j < 1 + rest.length
          · rw [if_pos hj]
            have hvj : (true :: rest).getD j false = true := by
              cases j with
              | zero => rfl
              | succ y =>
                rw [List.getD_cons_succ]
                exact getD_lt_takeWhile rest y (by omega)
            have hnotlost : ¬(j = (true :: rest).length - 1 ∧
                (j = 0 ∨ (true :: rest).getD (j - 1) false = false)) := by
              rintro ⟨ha, hb⟩
              simp only [List.length_cons, Nat.add_sub_cancel] at ha
              rcases hb with hb | hb
              · omega
              · cases j with
                | zero => omega
                | succ y =>
                  simp only [Nat.add_sub_cancel] at hb
                  cases y with
                  | zero => simp at hb
                  | succ z =>
                    rw [List.getD_cons_succ] at hb
                    have hz := getD_lt_takeWhile rest z (by omega)
                    rw [hz] at hb
                    simp at hb
            rw [if_pos ⟨by simp only [List.length_cons]; omega, hvj, hnotlost⟩]
          · rw [if_neg hj, if_neg]
            rintro ⟨h1, _, _⟩
            simp only [List.length_cons] at h1
            omega
      · rw [if_neg hall]
        have hKlt : (rest.takeWhile id).length < rest.length :=
          lt_of_le_of_ne hKle hall
        rw [List.countP_cons]
        rw [show 1 + (rest.takeWhile id).length + 1 =
            (rest.takeWhile id).length + 2 from by omega]
        have hsh := segScanGo_shift
          (rest.drop ((rest.takeWhile id).length + 1)) 0
          ((rest.takeWhile id).length + 2) none
        rw [Nat.zero_add] at hsh
        have hsh2 : segScanGo (rest.drop ((rest.takeWhile id).length + 1))
            ((rest.takeWhile id).length + 2) none =
            List.map (fun p => (p.1 + ((rest.takeWhile id).length + 2),
              p.2 + ((rest.takeWhile id).length + 2)))
              (segScanGo (rest.drop ((rest.takeWhile id).length + 1)) 0 none) := hsh
        rw [hsh2, List.countP_map]
        have hBlen : (rest.drop ((rest.takeWhile id).length + 1)).length =
            rest.length - ((rest.takeWhile id).length + 1) := by
          simp [List.length_drop]
        have hBn : (rest.drop ((rest.takeWhile id).length + 1)).length ≤ n := by
          rw [hBlen]; omega
        have hgdj : (true :: rest).getD j false = rest.getD (j - 1) false ∨
            j = 0 := by
          cases j with
          | zero => exact Or.inr rfl
          | succ y => exact Or.inl (by simp [List.getD_cons_succ])
        by_cases hj2 : (rest.takeWhile id).length + 2 ≤ j
        · have hhead : containsIdx j (0, 1 + (rest.takeWhile id).length) =
              false := by
            simp only [containsIdx, decide_eq_false_iff_not]
            omega
          have hheadn : (if containsIdx j (0, 1 + (rest.takeWhile id).length) =
              true then (1 : Nat) else 0) = 0 := by
            rw [hhead]
            simp
          rw [hheadn, Nat.add_zero]
          have hpred : (containsIdx j ∘ fun p =>
              (p.1 + ((rest.takeWhile id).length + 2),
               p.2 + ((rest.takeWhile id).length + 2))) =
              containsIdx (j - ((rest.takeWhile id).length + 2)) := by
            funext p
            simp only [Function.comp, containsIdx]
            exact decide_eq_decide.mpr (by omega)
          rw [hpred, ih _ hBn (j - ((rest.takeWhile id).length + 2))]
          have hgd : (rest.drop ((rest.takeWhile id).length + 1)).getD
              (j - ((rest.takeWhile id).length + 2)) false =
              rest.getD (j - 1) false := by
            rw [getD_drop_add]
            congr 1
            omega
          have hgdp : ((rest.takeWhile id).length + 2 < j) →
              (rest.drop ((rest.takeWhile id).length + 1)).getD
                (j - ((rest.takeWhile id).length + 2) - 1) false =
              rest.getD (j - 2) false := by
            intro hlt
            rw [getD_drop_add]
            congr 1
            omega
          have hgdj2 : (true :: rest).getD j false = rest.getD (j - 1) false := by
            rcases hgdj with h | h
            · exact h
            · omega
          have hgdp2 : j ≠ (rest.takeWhile id).length + 2 →
              (true :: rest).getD (j - 1) false = rest.getD (j - 2) false := by
            intro hne
            have : ∃ y, j - 1 = y + 1 := ⟨j - 2, by omega⟩
            obtain ⟨y, hy⟩ := this
            rw [hy, List.getD_cons_succ]
            congr 1
            omega
          have himpA : ((j - ((rest.takeWhile id).length + 2) <
                (rest.drop ((rest.takeWhile id).length + 1)).length ∧
              (rest.drop ((rest.takeWhile id).length + 1)).getD
                (j - ((rest.takeWhile id).length + 2)) false = true ∧
              ¬(j - ((rest.takeWhile id).length + 2) =
                  (rest.drop ((rest.takeWhile id).length + 1)).length - 1 ∧
                (j - ((rest.takeWhile id).length + 2) = 0 ∨
                 (rest.drop ((rest.takeWhile id).length + 1)).getD
                   (j - ((rest.takeWhile id).length + 2) - 1) false = false)))) →
              (j < (true :: rest).length ∧ (true :: rest).getD j false = true ∧
              ¬(j = (true :: rest).length - 1 ∧
                (j = 0 ∨ (true :: rest).getD (j - 1) false = false))) := by
            rintro ⟨h1, h2, h3⟩
            rw [hBlen] at h1
            refine ⟨by simp only [List.length_cons]; omega,
              by rw [hgdj2, ← hgd]; exact h2, ?_⟩
            rintro ⟨ha, hb⟩
            simp only [List.length_cons, Nat.add_sub_cancel] at ha
            apply h3
            refine ⟨by rw [hBlen]; omega, ?_⟩
            by_cases hje : j = (rest.takeWhile id).length + 2
            · exact Or.inl (by omega)
            · right
              rcases hb with hb | hb
              · omega
              · rw [hgdp (by omega), ← hgdp2 hje]
                exact hb
          have himpB : ((j < (true :: rest).length ∧
              (true :: rest).getD j false = true ∧
              ¬(j = (true :: rest).length - 1 ∧
                (j = 0 ∨ (true :: rest).getD (j - 1) false = false)))) →
              (j - ((rest.takeWhile id).length + 2) <
                (rest.drop ((rest.takeWhile id).length + 1)).length ∧
              (rest.drop ((rest.takeWhile id).length + 1)).getD
                (j - ((rest.takeWhile id).length + 2)) false = true ∧
              ¬(j - ((rest.takeWhile id).length + 2) =
                  (rest.drop ((rest.takeWhile id).length + 1)).length - 1 ∧
                (j - ((rest.takeWhile id).length + 2) = 0 ∨
                 (rest.drop ((rest.takeWhile id).length + 1)).getD
                   (j - ((rest.takeWhile id).length + 2) - 1) false = false))) := by
            rintro ⟨h1, h2, h3⟩
            simp only [List.length_cons] at h1
            refine ⟨by rw [hBlen]; omega,
              by rw [hgd, ← hgdj2]; exact h2, ?_⟩
            rintro ⟨ha, hb⟩
            rw [hBlen] at ha
            apply h3
            refine ⟨by simp only [List.length_cons, Nat.add_sub_cancel]; omega, ?_⟩
            right
            by_cases hje : j = (rest.takeWhile id).length + 2
            · rw [hje]
              rw [show (rest.takeWhile id).length + 2 - 1 =
                (rest.takeWhile id).length + 1 from by omega,
                List.getD_cons_succ]
              exact getD_at_takeWhile rest hKlt
            · rcases hb with hb | hb
              · omega
              · rw [hgdp2 hje, ← hgdp (by omega)]
                exact hb
          exact if_congr ⟨himpA, himpB⟩ rfl rfl
        · have htail : ((segScanGo
              (rest.drop ((rest.takeWhile id).length + 1)) 0 none).countP
              (containsIdx j ∘ fun p =>
                (p.1 + ((rest.takeWhile id).length + 2),
                 p.2 + ((rest.takeWhile id).length + 2)))) = 0 := by
            apply List.countP_eq_zero.mpr
            intro p _
            simp only [Function.comp, containsIdx, decide_eq_true_eq]
            omega
          rw [htail]
          by_cases hjK : j ≤ (rest.takeWhile id).length
          · have hhead : containsIdx j (0, 1 + (rest.takeWhile id).length) =
                true := by
              simp only [containsIdx, decide_eq_true_eq]
              omega
            have hheadp : (if containsIdx j (0, 1 + (rest.takeWhile id).length) =
                true then (1 : Nat) else 0) = 1 := by
              rw [hhead]
              simp
            rw [hheadp]
            have hvj : (true :: rest).getD j false = true := by
              cases j with
              | zero => rfl
              | succ y =>
                rw [List.getD_cons_succ]
                exact getD_lt_takeWhile rest y (by omega)
            have hnl : ¬(j = (true :: rest).length - 1 ∧
                (j = 0 ∨ (true :: rest).getD (j - 1) false = false)) := by
              rintro ⟨ha, _⟩
              simp only [List.length_cons, Nat.add_sub_cancel] at ha
              omega
            rw [if_pos ⟨by simp only [List.length_cons]; omega, hvj, hnl⟩]
          · have hj1 : j = (rest.takeWhile id).length + 1 := by omega
            have hhead : containsIdx j (0, 1 + (rest.takeWhile id).length) =
                false := by
              simp only [containsIdx, decide_eq_false_iff_not]
              omega
            have hheadn2 : (if containsIdx j (0, 1 + (rest.takeWhile id).length) =
                true then (1 : Nat) else 0) = 0 := by
              rw [hhead]
              simp
            rw [hheadn2]
            have hju : (true :: rest).getD j false = false := by
              rw [hj1, List.getD_cons_succ]
              exact getD_at_takeWhile rest hKlt
            have hnc : ¬(j < (true :: rest).length ∧
                (true :: rest).getD j false = true ∧
                ¬(j = (true :: rest).length - 1 ∧
                  (j = 0 ∨ (true :: rest).getD (j - 1) false = false))) := by
              rintro ⟨h1x, h2x, h3x⟩
              rw [hju] at h2x
              simp at h2x
            rw [if_neg hnc]

example : segScan [true, false] = [(0, 1)] := by decide
example : segScan [false, true] = [] := by decide
example : segScan [true] = [] := by decide
example : segScan [true, true] = [(0, 2)] := by decide
example : segScan [true, true, false, true, true, true] = [(0, 2), (3, 6)] := by decide
example : renderedSegments [true, false] = [] := by decide

/-- on_select (source lines 455-465) over exact rationals: a raw start below
0.1 s snaps to zero, the raw end is clamped down to
clipDuration - margin - 0.05, and the stored pair is
(max 0 xmin, min maxEnd xmax). -/
def onSelect (clipDuration margin rawStart rawEnd : ℚ) : ℚ × ℚ :=
  let xmin := if rawStart < 1/10 then 0 else rawStart
  let maxEnd := clipDuration - margin - 1/20
  let xmax := if rawEnd > maxEnd then maxEnd else rawEnd
  (max 0 xmin, min maxEnd xmax)

/-- clear_selection (source lines 1303-1308): loop start 0 and loop end
clipDuration - margin - 0.05. -/
def clearSelection (clipDuration margin : ℚ) : ℚ × ℚ :=
  (0, clipDuration - margin - 1/20)

/-- Estimator state: _last_playback_time and _last_playback_pos (both set to
0.0 in __init__, source lines 142-143, so the hasattr guard of the poll is
always true after construction), the _expecting_seek flag (line 148) and
_seek_grace_start (line 149), carried for faithfulness. -/
structure EstState where
  lastTime : ℚ
  lastPos : ℚ
  expectingSeek : Bool
  seekGraceStart : Option ℚ
deriving Repr, DecidableEq

/-- Setting _expecting_seek and _seek_grace_start, as done immediately before
every programmatic seek (source lines 773-774, 778-779, 823-824, 924-925,
976-977). -/
def markSeekIssued (now : ℚ) (st : EstState) : EstState :=
  { st with expectingSeek := true, seekGraceStart := some now }

/-- Observed time of a poll (source lines 836-841): 0 when get_time is None
or negative, else seconds, clamped into [0, maxEnd]. -/
def pollObserved (maxEnd : ℚ) (obsMs : Option Int) : ℚ :=
  let t : ℚ := match obsMs with
    | none => 0
    | some ms => if 0 ≤ ms then (ms : ℚ) / 1000 else 0
  max 0 (min t maxEnd)

/-- Baseline update of poll_vlc_state_and_overlay (source lines 843-872):
snap to the observed time when a seek was just issued (consuming the flag),
when the engine is neither playing nor buffering, or when the observed time
is ahead of the clamped interpolation by more than 0.1 s; otherwise store the
clamped interpolation as the new baseline.  In every case the baseline
timestamp becomes now. -/
def onPoll (maxEnd : ℚ) (st : EstState) (now : ℚ) (obsMs : Option Int)
    (playing : Bool) : EstState :=
  let t := pollObserved maxEnd obsMs
  let interp := max 0 (min (st.lastPos + (now - st.lastTime)) maxEnd)
  if st.expectingSeek then
    { st with lastTime := now, lastPos := t, expectingSeek := false }
  else if playing = false then
    { st with lastTime := now, lastPos := t }
  else if interp + 1/10 < t then
    { st with lastTime := now, lastPos := t }
  else
    { st with lastTime := now, lastPos := interp }

/-- _update_native_playback_indicator (source lines 894-915): no position
update when the indicator timer is inactive or the engine is neither playing
nor buffering; otherwise the wall-clock extrapolation of the baseline,
clamped into [0, maxEnd]. -/
def onAnimationTick (maxEnd : ℚ) (timerActive playing : Bool) (st : EstState)
    (now : ℚ) : Option ℚ :=
  if timerActive = false then none
  else if playing = false then none
  else some (max 0 (min (st.lastPos + (now - st.lastTime)) maxEnd))

/-- Abstract effects issued by the two loop-end handlers. -/
inductive Act where
  | pause
  | play
  | seekTo (ms : Int)
  | markSeek
  | stopPollTimer
  | startPollTimer
  | cancelRestartTimer
  | scheduleRestart (delayMs : Int) (guarded : Bool)
deriving Repr, DecidableEq

/-- Parsing of the loop-delay input field (source lines 801-806 and 950-956):
unparsable or out-of-range text counts as 0. -/
def parseLoopDelay : Option Int → Int
  | none => 0
  | some v => if v < 0 ∨ 800 < v then 0 else v

/-- Actions of poll_vlc_state_and_overlay once the playing position has
reached the loop end (source lines 800-830).  With looping on and a positive
delay: pause, stop the poll timer, cancel any pending restart timer, and arm
a one-shot restart whose callback re-checks the looping flag (guarded).
Otherwise: mark seek-issued and seek to the loop start, and when looping is
off additionally pause and stop the poll timer. -/
def pollLoopEndActions (looping : Bool) (delayInput : Option Int)
    (loopStart : ℚ) : List Act :=
  let d := parseLoopDelay delayInput
  if looping = true ∧ 0 < d then
    [Act.pause, Act.stopPollTimer, Act.cancelRestartTimer,
     Act.scheduleRestart d true]
  else
    [Act.markSeek, Act.seekTo ⌊loopStart * 1000⌋] ++
      (if looping = true then [] else [Act.pause, Act.stopPollTimer])

/-- Actions of on_vlc_end_reached (source lines 946-973).  With looping on
and a positive delay: pause, stop the poll timer, and arm a one-shot restart
that does not re-check the looping flag (unguarded) and without cancelling a
pending restart timer.  Otherwise: seek to the loop start without marking
seek-issued, then play and start the poll timer when looping, else pause. -/
def endReachedActions (looping : Bool) (delayInput : Option Int)
    (loopStart : ℚ) : List Act :=
  let d := parseLoopDelay delayInput
  if looping = true ∧ 0 < d then
    [Act.pause, Act.stopPollTimer, Act.scheduleRestart d false]
  else
    [Act.seekTo ⌊loopStart * 1000⌋] ++
      (if looping = true then [Act.play, Act.startPollTimer] else [Act.pause])

/-- Restart delays armed by a handler run. -/
def restartDelays (acts : List Act) : List Int :=
  acts.filterMap fun a => match a with
    | Act.scheduleRestart d _ => some d
    | _ => none

/-- Seek targets issued directly by a handler run. -/
def seekTargets (acts : List Act) : List Int :=
  acts.filterMap fun a => match a with
    | Act.seekTo m => some m
    | _ => none

/-- Engine commands issued by toggle_play_pause. -/
inductive EngCmd where
  | pause
  | play
  | setTime (ms : Int)
deriving Repr, DecidableEq

/-- Scheduler-side state read and written by toggle_play_pause: the
_play_pause_debounce flag, the pending QTimer.singleShot(200, ...) reset,
the pending loop-delay timer, and the _expecting_seek flag. -/
structure TogState where
  playPauseDebounce : Bool
  debounceResetAt : Option ℚ
  loopTimerPending : Bool
  expectingSeek : Bool
deriving Repr, DecidableEq

/-- A due single-shot debounce reset (armed at source line 785, handler at
lines 787-788) fires on the event loop before any later call runs. -/
def fireDueTimers (st : TogState) (now : ℚ) : TogState :=
  match st.debounceResetAt with
  | some r =>
    if r ≤ now then
      { st with playPauseDebounce := false, debounceResetAt := none }
    else st
  | none => st

/-- toggle_play_pause (source lines 755-785): cancel any pending loop-delay
timer, return with no engine command when the debounce flag is set, otherwise
set the flag, command the engine (pause when playing or buffering; when not,
seek to the loop start if the current position lies outside the loop region
or nudge it forward by 10 ms, then play), and arm the debounce reset 0.2 s
later. -/
def togglePlayPause (st : TogState) (now : ℚ) (enginePlaying : Bool)
    (engineTimeMs : Int) (loopStart loopEnd : ℚ) : TogState × List EngCmd :=
  let st1 := fireDueTimers st now
  let st2 := { st1 with loopTimerPending := false }
  if st2.playPauseDebounce then (st2, [])
  else
    let st3 :=
      { st2 with playPauseDebounce := true, debounceResetAt := some (now + 1/5) }
    if enginePlaying then (st3, [EngCmd.pause])
    else
      let ct : ℚ := (engineTimeMs : ℚ) / 1000
      if ct < loopStart ∨ loopEnd ≤ ct then
        ({ st3 with expectingSeek := true },
         [EngCmd.setTime ⌊loopStart * 1000⌋, EngCmd.play])
      else
        ({ st3 with expectingSeek := true },
         [EngCmd.setTime ⌊(ct + 1/100) * 1000⌋, EngCmd.play])

/-- Silence threshold of the recording trim (source line 1060). -/
def trimThreshold : ℚ := 1/10000

/-- Last index whose magnitude exceeds the threshold, scanning a buffer whose
head has absolute index i; mirrors the use of np.where(...)[0] and its final
element at source lines 1060-1062. -/
def lastAboveAux (th : ℚ) : List ℚ → Nat → Option Nat
  | [], _ => none
  | x :: rest, i =>
    match lastAboveAux th rest (i + 1) with
    | some k => some k
    | none => if th < |x| then some i else none

/-- Last above-threshold index of a whole buffer. -/
def lastAbove (th : ℚ) (buf : List ℚ) : Option Nat :=
  lastAboveAux th buf 0

/-- The trim of _record_thread (source lines 1058-1065): keep everything up
to and including the last sample above the threshold; a buffer with no such
sample is kept whole. -/
def trimRecording (buf : List ℚ) : List ℚ :=
  match lastAbove trimThreshold buf with
  | some k => buf.take (k + 1)
  | none => buf

/-- Truncation toward zero, as the int16 cast of numpy does. -/
def ratTrunc (q : ℚ) : Int :=
  if 0 ≤ q then ⌊q⌋ else -⌊-q⌋

/-- Conversion of one float sample for wavfile.write (source line 1067):
clip into the unit interval, scale by 32767, truncate. -/
def toInt16 (q : ℚ) : Int :=
  ratTrunc (max (-1) (min 1 q) * 32767)

/-- Samples written to the wav file: the trimmed buffer converted
samplewise (source lines 1066-1068). -/
def persistedSamples (buf : List ℚ) : List Int :=
  (trimRecording buf).map toInt16

/-- C1 counterexample: on the mask [true, false] the scan closes the
length-1 voiced segment (0, 1), but redraw_waveform renders nothing for it —
the voiced sample at index 0 is dropped from the rendered output, contrary to
the claim that a length-1 segment is still rendered as a point-like stroke. -/
theorem contour_len1_dropped_cex :
    (0, 1) ∈ segScan [true, false] ∧ (0, 1) ∉ renderedSegments [true, false] := by
  decide

/-- C1 (amended): every segment actually rendered by redraw_waveform has
length at least 2; a maximal voiced segment of length exactly 1 is closed by
the scan but never rendered. -/
theorem contour_rendered_min_length (voiced : List Bool) (p : Nat × Nat)
    (hp : p ∈ renderedSegments voiced) :
    p ∈ segScan voiced ∧ 2 ≤ p.2 - p.1 := by
  have h := List.mem_filter.mp hp
  refine ⟨h.1, ?_⟩
  have h2 := of_decide_eq_true h.2
  omega

/-- Witness for the amended C1 theorem at the concrete mask
[true, true, false]. -/
theorem contour_rendered_min_length_witness :
    (0, 2) ∈ segScan [true, true, false] ∧ 2 ≤ (0, 2).2 - (0, 2).1 :=
  contour_rendered_min_length [true, true, false] (0, 2) (by decide)

/-- C2 counterexample: in the mask [false, true] the index 1 is voiced and is
the start of a maximal voiced run beginning at the final index; the scan
closes no segment at all, so this voiced index belongs to no segment,
contrary to the claim that every voiced index belongs to exactly one. -/
theorem contour_partition_cex :
    [false, true].getD 1 false = true ∧
      (segScan [false, true]).countP (containsIdx 1) = 0 := by
  decide

/-- C2 (amended): segments of the scan contain only voiced samples, and every
voiced index belongs to exactly one segment, except that a voiced run
beginning at the final index of the sequence is never closed: its index
belongs to no segment.  Stated as an exact count: index j lies in exactly one
closed segment iff it is in range, voiced, and not the start of a voiced run
at the final index; otherwise it lies in none. -/
theorem contour_partition_except_final (voiced : List Bool) (j : Nat) :
    (segScan voiced).countP (containsIdx j) =
      (if j < voiced.length ∧ voiced.getD j false = true ∧
          ¬(j = voiced.length - 1 ∧ (j = 0 ∨ voiced.getD (j - 1) false = false))
       then 1 else 0) :=
  segScanGo_countP voiced.length voiced le_rfl j

/-- C4 counterexample: with clip duration 0.4 s and margin 0.3 s the clamp
bound is 0.05 s; the raw selection (0.2, 0.3) has rawStart < rawEnd, yet
on_select stores start 0.2 and end 0.05, a region with start strictly greater
than end — the code performs no defensive end-at-least-start clamp. -/
theorem loop_region_inversion_cex :
    (1 : ℚ)/5 < 3/10 ∧
      (onSelect (2/5) (3/10) (1/5) (3/10)).2 <
        (onSelect (2/5) (3/10) (1/5) (3/10)).1 := by
  constructor
  · norm_num
  · norm_num [onSelect]

/-- C4 (amended): for a raw selection with 0 ≤ rawStart < rawEnd, the stored
region satisfies start ≤ end provided the snapped start does not exceed the
clamp bound clipDuration - margin - 0.05; without that proviso the stored
region can have start greater than end, since the code never clamps end up to
start. -/
theorem loop_region_no_inversion_under_bound
    (clipDuration margin rawStart rawEnd : ℚ)
    (h0 : 0 ≤ rawStart) (hlt : rawStart < rawEnd)
    (hb : (onSelect clipDuration margin rawStart rawEnd).1 ≤
      clipDuration - margin - 1/20) :
    (onSelect clipDuration margin rawStart rawEnd).1 ≤
      (onSelect clipDuration margin rawStart rawEnd).2 := by
  simp only [onSelect] at hb ⊢
  apply le_min
  · exact hb
  · by_cases he : rawEnd > clipDuration - margin - 1/20
    · simp only [if_pos he]
      exact hb
    · simp only [if_neg he]
      by_cases hsnap : rawStart < 1/10
      · simp only [if_pos hsnap]
        rw [max_self]
        linarith
      · simp only [if_neg hsnap]
        rw [max_eq_right h0]
        linarith

/-- Witness for the amended C4 theorem: a 5 s clip with margin 0.3 s and raw
selection (1, 2). -/
theorem loop_region_no_inversion_witness :
    (onSelect 5 (3/10) 1 2).1 ≤ (onSelect 5 (3/10) 1 2).2 :=
  loop_region_no_inversion_under_bound 5 (3/10) 1 2 (by norm_num) (by norm_num)
    (by norm_num [onSelect])

/-- C6: the cleared/default region is (0, clipDuration - margin - 0.05); a
raw start below 0.1 s snaps to 0; a raw end beyond the clamp bound is clamped
to it; and the end-to-end examples of the spec hold: for a 5 s clip with
margin 0.3 s the default region is (0, 4.65), selecting (0.05, 4) yields
(0, 4), and selecting (1, 4.8) yields (1, 4.65). -/
theorem selection_rules_spec (d m rs re rs2 re2 : ℚ) :
    clearSelection d m = (0, d - m - 1/20) ∧
    (rs < 1/10 → (onSelect d m rs re).1 = 0) ∧
    (d - m - 1/20 < re2 → (onSelect d m rs2 re2).2 = d - m - 1/20) ∧
    clearSelection 5 (3/10) = (0, 93/20) ∧
    onSelect 5 (3/10) (1/20) 4 = (0, 4) ∧
    onSelect 5 (3/10) 1 (24/5) = (1, 93/20) := by
  refine ⟨rfl, ?_, ?_, by norm_num [clearSelection], ?_, ?_⟩
  · intro h
    simp only [onSelect]
    rw [if_pos h]
    simp
  · intro h
    simp only [onSelect]
    rw [if_pos h]
    simp
  · norm_num [onSelect, Prod.ext_iff]
  · norm_num [onSelect, Prod.ext_iff]

/-- Witness for the C6 theorem: its two conditional clauses applied at
concrete raw selections on a 5 s clip with margin 0.3 s. -/
theorem selection_rules_spec_witness :
    (onSelect 5 (3/10) (1/20) 4).1 = 0 ∧
      (onSelect 5 (3/10) 1 (24/5)).2 = 5 - 3/10 - 1/20 :=
  ⟨(selection_rules_spec 5 (3/10) (1/20) 4 1 (24/5)).2.1 (by norm_num),
   (selection_rules_spec 5 (3/10) (1/20) 4 1 (24/5)).2.2.1 (by norm_num)⟩

/-- C5: after markSeekIssued, the very next poll with a valid observed time T
in [0, maxEnd] while the engine is playing snaps the baseline exactly to T
and consumes the expectingSeek flag (resets it to false), for every prior
estimator state — the baseline attributes are initialized in the constructor,
so the poll always takes the updating branch. -/
theorem estimator_poll_after_seek (maxEnd : ℚ) (st : EstState) (t0 now : ℚ)
    (ms : Int) (h0 : 0 ≤ ms) (h1 : (ms : ℚ) / 1000 ≤ maxEnd) :
    (onPoll maxEnd (markSeekIssued t0 st) now (some ms) true).lastPos =
        (ms : ℚ) / 1000 ∧
      (onPoll maxEnd (markSeekIssued t0 st) now (some ms) true).expectingSeek =
        false := by
  have hms0 : (0 : ℚ) ≤ (ms : ℚ) / 1000 := by
    apply div_nonneg _ (by norm_num)
    exact_mod_cast h0
  constructor
  · simp only [onPoll, markSeekIssued, pollObserved, if_pos rfl]
    rw [if_pos h0, min_eq_left h1, max_eq_right hms0]
    simp
  · simp [onPoll, markSeekIssued]

/-- Witness for the C5 theorem: a fresh estimator, a seek mark at time 0 and
a poll observing 2000 ms against a 5 s bound. -/
theorem estimator_poll_after_seek_witness :
    (onPoll 5 (markSeekIssued 0 ⟨0, 0, false, none⟩) 1 (some 2000) true).lastPos =
        ((2000 : Int) : ℚ) / 1000 ∧
      (onPoll 5 (markSeekIssued 0 ⟨0, 0, false, none⟩) 1
          (some 2000) true).expectingSeek = false :=
  ⟨(estimator_poll_after_seek 5 ⟨0, 0, false, none⟩ 0 1 2000 (by norm_num)
      (by norm_num)).1,
   (estimator_poll_after_seek 5 ⟨0, 0, false, none⟩ 0 1 2000 (by norm_num)
      (by norm_num)).2⟩

/-- C8: the animation tick never yields a position outside [0, maxEnd]
whatever the elapsed wall-clock delta, and it yields no position update at
all (so the rendered position does not advance) when the engine is not
playing. -/
theorem animation_tick_safe (maxEnd : ℚ) (hm : 0 ≤ maxEnd)
    (timerActive playing : Bool) (st : EstState) (now : ℚ) :
    (playing = false → onAnimationTick maxEnd timerActive playing st now = none) ∧
    (∀ p : ℚ, onAnimationTick maxEnd timerActive playing st now = some p →
      0 ≤ p ∧ p ≤ maxEnd) := by
  constructor
  · intro hp
    simp [onAnimationTick, hp]
  · intro p hp
    by_cases hta : timerActive = false
    · simp [onAnimationTick, hta] at hp
    · by_cases hpl : playing = false
      · simp [onAnimationTick, hta, hpl] at hp
      · simp only [onAnimationTick, if_neg hta, if_neg hpl,
          Option.some.injEq] at hp
        subst hp
        exact ⟨le_max_left 0 _, max_le hm (min_le_right _ _)⟩

/-- Witness for the C8 theorem: a paused tick yields no update, and a playing
tick with a huge elapsed delta stays clamped to the 1 s bound. -/
theorem animation_tick_safe_witness :
    onAnimationTick 1 true false ⟨0, 0, false, none⟩ 5 = none ∧
      (0 ≤ (1 : ℚ) ∧ (1 : ℚ) ≤ 1) :=
  ⟨(animation_tick_safe 1 (by norm_num) true false ⟨0, 0, false, none⟩ 5).1 rfl,
   (animation_tick_safe 1 (by norm_num) true true ⟨0, 0, false, none⟩ 5).2 1
     (by norm_num [onAnimationTick])⟩

/-- C3 counterexample: with looping enabled and a 500 ms delay, the poll-based
loop-end handler cancels any pending restart timer before arming a new one,
while the end-of-media handler arms its one-shot restart without any cancel —
the two decision trees are not identical as claimed. -/
theorem end_handler_no_cancel_cex :
    Act.cancelRestartTimer ∈ pollLoopEndActions true (some 500) 0 ∧
      Act.cancelRestartTimer ∉ endReachedActions true (some 500) 0 := by
  constructor
  · simp [pollLoopEndActions, parseLoopDelay]
  · simp [endReachedActions, parseLoopDelay]

/-- C3 (amended): the two handlers select the same coarse branch for every
configuration — the same restart delay is armed when looping with positive
delay, the same loop-start seek target is issued in the immediate branches,
and they pause in exactly the same configurations — but their action
sequences differ in the details: the end-of-media handler cancels no pending
restart timer, arms an unguarded restart, marks no seek-issued before its
immediate seek, and issues play plus poll-timer start after an immediate
restart since the stream has ended. -/
theorem loop_handlers_branch_agreement (looping : Bool)
    (delayInput : Option Int) (loopStart : ℚ) :
    restartDelays (endReachedActions looping delayInput loopStart) =
        restartDelays (pollLoopEndActions looping delayInput loopStart) ∧
      seekTargets (endReachedActions looping delayInput loopStart) =
        seekTargets (pollLoopEndActions looping delayInput loopStart) ∧
      (Act.pause ∈ endReachedActions looping delayInput loopStart ↔
        Act.pause ∈ pollLoopEndActions looping delayInput loopStart) := by
  cases looping with
  | false =>
    simp [endReachedActions, pollLoopEndActions, restartDelays, seekTargets,
      List.filterMap]
  | true =>
    by_cases hd : 0 < parseLoopDelay delayInput
    · simp [endReachedActions, pollLoopEndActions, hd, restartDelays,
        seekTargets, List.filterMap]
    · simp [endReachedActions, pollLoopEndActions, hd, restartDelays,
        seekTargets, List.filterMap]

/-- C7: when two togglePlayPause calls are separated by less than the 200 ms
debounce cooldown, the second call issues no engine command at all: the pair
results in exactly the first call's command sequence, which is never empty. -/
theorem toggle_debounce_suppresses_second (st : TogState) (t1 t2 : ℚ)
    (p1 p2 : Bool) (m1 m2 : Int) (ls1 le1 ls2 le2 : ℚ)
    (h0 : st.playPauseDebounce = false) (h2 : t2 < t1 + 1/5) :
    (togglePlayPause ((togglePlayPause st t1 p1 m1 ls1 le1).1)
        t2 p2 m2 ls2 le2).2 = [] ∧
      (togglePlayPause st t1 p1 m1 ls1 le1).2 ≠ [] := by
  have hfire : (fireDueTimers st t1).playPauseDebounce = false := by
    cases hrs : st.debounceResetAt with
    | none => simpa [fireDueTimers, hrs] using h0
    | some r =>
      by_cases hr : r ≤ t1
      · simp [fireDueTimers, hrs, hr]
      · simpa [fireDueTimers, hrs, hr] using h0
  have hmain : ((togglePlayPause st t1 p1 m1 ls1 le1).1.playPauseDebounce = true ∧
      (togglePlayPause st t1 p1 m1 ls1 le1).1.debounceResetAt =
        some (t1 + 1/5)) ∧
      (togglePlayPause st t1 p1 m1 ls1 le1).2 ≠ [] := by
    simp only [togglePlayPause]
    rw [if_neg (by simp [hfire])]
    cases p1 with
    | true => simp
    | false =>
      by_cases hc : ((m1 : ℚ) / 1000 < ls1 ∨ le1 ≤ (m1 : ℚ) / 1000)
      · simp [hc]
      · simp [hc]
  obtain ⟨⟨hd1, hd2⟩, hne⟩ := hmain
  refine ⟨?_, hne⟩
  set r1 := (togglePlayPause st t1 p1 m1 ls1 le1).1 with hr1
  have hnotdue : ¬(t1 + 1/5 ≤ t2) := by linarith
  have hfire2 : fireDueTimers r1 t2 = r1 := by
    simp only [fireDueTimers, hd2]
    rw [if_neg hnotdue]
  simp only [togglePlayPause, hfire2]
  rw [if_pos (by simp [hd1])]

/-- Witness for the C7 theorem: two calls 10 ms apart from an idle state; the
second issues nothing, the first issues a nonempty command sequence. -/
theorem toggle_debounce_witness :
    (togglePlayPause ((togglePlayPause ⟨false, none, false, false⟩ 0 false 0
        0 1).1) (1/100) false 0 0 1).2 = [] ∧
      (togglePlayPause ⟨false, none, false, false⟩ 0 false 0 0 1).2 ≠ [] :=
  toggle_debounce_suppresses_second ⟨false, none, false, false⟩ 0 (1/100)
    false false 0 0 0 1 0 1 rfl (by norm_num)

/-- The index scan finds no index exactly when every sample is at or below
the threshold. -/
theorem lastAboveAux_none (th : ℚ) : ∀ (l : List ℚ) (i : Nat),
    (lastAboveAux th l i = none ↔ ∀ j, j < l.length → |l.getD j 0| ≤ th) := by
  intro l
  induction l with
  | nil => intro i; simp [lastAboveAux]
  | cons x rest ih =>
    intro i
    simp only [lastAboveAux]
    cases hrec : lastAboveAux th rest (i + 1) with
    | some k =>
      simp only
      constructor
      · intro h
        cases h
      · intro h
        exfalso
        have hnone : lastAboveAux th rest (i + 1) = none := by
          apply (ih (i + 1)).mpr
          intro j hj
          have := h (j + 1) (by simpa using Nat.succ_lt_succ hj)
          simpa [List.getD_cons_succ] using this
        rw [hrec] at hnone
        cases hnone
    | none =>
      simp only
      by_cases hx : th < |x|
      · rw [if_pos hx]
        constructor
        · intro h
          cases h
        · intro h
          exfalso
          have := h 0 (by simp)
          rw [List.getD_cons_zero] at this
          linarith
      · rw [if_neg hx]
        constructor
        · intro _ j hj
          cases j with
          | zero =>
            rw [List.getD_cons_zero]
            linarith
          | succ y =>
            rw [List.getD_cons_succ]
            exact (ih (i + 1)).mp hrec y (by simpa using hj)
        · intro _
          rfl

/-- When the index scan returns some k, the sample at k exceeds the
threshold and every later sample is at or below it. -/
theorem lastAboveAux_some (th : ℚ) : ∀ (l : List ℚ) (i k : Nat),
    lastAboveAux th l i = some k →
    i ≤ k ∧ k < i + l.length ∧ th < |l.getD (k - i) 0| ∧
      ∀ j, k - i < j → j < l.length → |l.getD j 0| ≤ th := by
  intro l
  induction l with
  | nil => intro i k h; cases h
  | cons x rest ih =>
    intro i k h
    simp only [lastAboveAux] at h
    cases hrec : lastAboveAux th rest (i + 1) with
    | some k2 =>
      rw [hrec] at h
      injection h with he
      subst he
      obtain ⟨h1, h2, h3, h4⟩ := ih (i + 1) k2 hrec
      refine ⟨by omega, by simp only [List.length_cons]; omega, ?_, ?_⟩
      · rw [show k2 - i = (k2 - (i + 1)) + 1 from by omega,
          List.getD_cons_succ]
        exact h3
      · intro j hj hjlen
        cases j with
        | zero => omega
        | succ y =>
          rw [List.getD_cons_succ]
          exact h4 y (by omega) (by simpa using hjlen)
    | none =>
      rw [hrec] at h
      by_cases hx : th < |x|
      · rw [if_pos hx] at h
        cases h
        refine ⟨le_rfl, by simp, ?_, ?_⟩
        · rw [Nat.sub_self, List.getD_cons_zero]
          exact hx
        · intro j hj hjlen
          cases j with
          | zero => omega
          | succ y =>
            rw [List.getD_cons_succ]
            exact (lastAboveAux_none th rest (i + 1)).mp hrec y
              (by simpa using hjlen)
      · rw [if_neg hx] at h
        cases h

/-- C9: when the captured buffer has at least one sample above the silence
threshold, the persisted recording is the prefix ending exactly at the last
above-threshold sample: everything after that sample is discarded, and the
persisted file is the samplewise int16 conversion of that prefix. -/
theorem recording_trim_spec (buf : List ℚ)
    (h : ∃ i, i < buf.length ∧ trimThreshold < |buf.getD i 0|) :
    ∃ k, k < buf.length ∧ trimThreshold < |buf.getD k 0| ∧
      (∀ j, k < j → j < buf.length → |buf.getD j 0| ≤ trimThreshold) ∧
      trimRecording buf = buf.take (k + 1) ∧
      persistedSamples buf = (buf.take (k + 1)).map toInt16 := by
  obtain ⟨i, hi, hth⟩ := h
  cases hk : lastAbove trimThreshold buf with
  | none =>
    exfalso
    have := (lastAboveAux_none trimThreshold buf 0).mp hk i hi
    linarith
  | some k =>
    obtain ⟨h1, h2, h3, h4⟩ := lastAboveAux_some trimThreshold buf 0 k hk
    rw [Nat.zero_add] at h2
    rw [Nat.sub_zero] at h3
    refine ⟨k, h2, h3, ?_, ?_, ?_⟩
    · intro j hj hjl
      exact h4 j (by omega) hjl
    · simp [trimRecording, hk]
    · simp [persistedSamples, trimRecording, hk]

/-- Witness for the C9 theorem at the concrete buffer [1, 0]. -/
theorem recording_trim_spec_witness :
    ∃ k, k < [(1 : ℚ), 0].length ∧
      trimThreshold < |[(1 : ℚ), 0].getD k 0| ∧
      (∀ j, k < j → j < [(1 : ℚ), 0].length →
        |[(1 : ℚ), 0].getD j 0| ≤ trimThreshold) ∧
      trimRecording [(1 : ℚ), 0] = [(1 : ℚ), 0].take (k + 1) ∧
      persistedSamples [(1 : ℚ), 0] = ([(1 : ℚ), 0].take (k + 1)).map toInt16 :=
  recording_trim_spec [(1 : ℚ), 0]
    ⟨0, by norm_num, by rw [List.getD_cons_zero]; norm_num [trimThreshold]⟩

/-- C10: when no sample of the captured buffer exceeds the silence threshold,
the trim leaves the buffer unchanged and the whole untrimmed capture is
persisted — for a nonempty capture the persisted file is never empty. -/
theorem recording_trim_silent (buf : List ℚ)
    (h : ∀ j, j < buf.length → |buf.getD j 0| ≤ trimThreshold) :
    trimRecording buf = buf ∧ (buf ≠ [] → persistedSamples buf ≠ []) := by
  have hn : lastAbove trimThreshold buf = none :=
    (lastAboveAux_none trimThreshold buf 0).mpr h
  constructor
  · simp [trimRecording, hn]
  · intro hb
    simp [persistedSamples, trimRecording, hn, hb]

/-- Witness for the C10 theorem at the all-silent buffer [0]. -/
theorem recording_trim_silent_witness :
    trimRecording [(0 : ℚ)] = [(0 : ℚ)] ∧ persistedSamples [(0 : ℚ)] ≠ [] := by
  have h := recording_trim_silent [(0 : ℚ)] (by
    intro j hj
    have hj0 : j = 0 := by simpa using hj
    subst hj0
    rw [List.getD_cons_zero]
    norm_num [trimThreshold])
  exact ⟨h.1, h.2 (by simp)⟩
